import Mathlib

/-!
Verification development for `django_structure_scanner.py`.

The Python source is shallowly embedded: its AST-walking extraction
functions (`parse_code`, `get_node_line_numbers`,
`extract_functions_classes`, `find_imports_and_relations`,
`generate_project_structure_json`) become total Lean functions over an
explicit model of Python `ast` trees, file-system read outcomes and
exceptions.  `ast.walk`'s breadth-first queue loop is embedded as `walk`
below, made kernel-computable with a fuel parameter; the theorems
`walk_nil` and `walk_cons` establish exactly the queue semantics of the
Python loop (pop the front node, yield it, push its children at the back).
-/

/-- Position metadata of one AST node: `lineno` is always present on the
nodes the scanner inspects, the other attributes are modelled as `Option`
(`none` = the Python attribute is missing, i.e. `hasattr` is false). -/
structure PosInfo where
  lineno : Int
  col_offset : Option Int
  end_lineno : Option Int
  end_col_offset : Option Int
deriving DecidableEq, Repr

/-- One `ast.alias` entry of an import statement: the dotted name and the
optional `as` binding. -/
structure AliasName where
  name : String
  asname : Option String
deriving DecidableEq, Repr

/-- Model of the Python AST nodes the scanner distinguishes.  `module` is
the root `ast.Module` (it has no position attributes).  `otherStmt` stands
for every other statement/expression kind (`If`, `For`, `Try`, …): the
scanner never matches those, it only walks through their children. -/
inductive Node where
  | module (body : List Node)
  | functionDef (name : String) (body : List Node) (pos : PosInfo)
  | asyncFunctionDef (name : String) (body : List Node) (pos : PosInfo)
  | classDef (name : String) (body : List Node) (pos : PosInfo)
  | importStmt (names : List AliasName) (pos : PosInfo)
  | importFrom (mod : Option String) (names : List AliasName) (pos : PosInfo)
  | otherStmt (children : List Node) (pos : PosInfo)

/-- The child nodes `ast.iter_child_nodes` yields that can contain further
statements.  (Leaf payloads such as `ast.alias` objects, argument lists and
decorator expressions cannot contain statement nodes, so they are not
modelled; dropping them changes neither which nodes the scanner matches nor
their relative order.) -/
def children : Node → List Node
  | .module body => body
  | .functionDef _ body _ => body
  | .asyncFunctionDef _ body _ => body
  | .classDef _ body _ => body
  | .importStmt _ _ => []
  | .importFrom _ _ _ => []
  | .otherStmt cs _ => cs

mutual

/-- Number-of-nodes measure of one tree (used only to supply traversal
fuel; every constructor counts at least 1). -/
def nodeSize : Node → Nat
  | .module body => 1 + listSize body
  | .functionDef _ body _ => 1 + listSize body
  | .asyncFunctionDef _ body _ => 1 + listSize body
  | .classDef _ body _ => 1 + listSize body
  | .importStmt _ _ => 1
  | .importFrom _ _ _ => 1
  | .otherStmt cs _ => 1 + listSize cs

/-- Measure of a queue of trees. -/
def listSize : List Node → Nat
  | [] => 1
  | n :: rest => 1 + nodeSize n + listSize rest

end

theorem listSize_append (l₁ l₂ : List Node) :
    listSize (l₁ ++ l₂) + 1 = listSize l₁ + listSize l₂ := by
  induction l₁ with
  | nil => simp [listSize]; omega
  | cons a l ih => simp [listSize] at ih ⊢; omega

theorem one_le_nodeSize (n : Node) : 1 ≤ nodeSize n := by
  cases n <;> simp [nodeSize]

theorem one_le_listSize (l : List Node) : 1 ≤ listSize l := by
  cases l with
  | nil => simp [listSize]
  | cons a t =>
    have h : listSize (a :: t) = 1 + nodeSize a + listSize t := rfl
    omega

theorem listSize_children_le (n : Node) : listSize (children n) ≤ nodeSize n := by
  cases n <;> simp [children, nodeSize, listSize]

/-- Fuelled breadth-first traversal; one unit of fuel is spent per node
popped from the queue.  `walk` below supplies enough fuel, and the
equations `walk_nil` / `walk_cons` recover the exact queue-loop semantics
of Python's `ast.walk`. -/
def walkF : Nat → List Node → List Node
  | _, [] => []
  | 0, _ :: _ => []
  | f + 1, n :: rest => n :: walkF f (rest ++ children n)

theorem walkF_congr : ∀ (f₁ f₂ : Nat) (q : List Node),
    listSize q ≤ f₁ + 1 → listSize q ≤ f₂ + 1 → walkF f₁ q = walkF f₂ q := by
  intro f₁
  induction f₁ with
  | zero =>
    intro f₂ q h₁ h₂
    match q with
    | [] => cases f₂ <;> rfl
    | n :: rest =>
      exfalso
      have hn := one_le_nodeSize n
      have hr := one_le_listSize rest
      have hs : listSize (n :: rest) = 1 + nodeSize n + listSize rest := rfl
      omega
  | succ f ih =>
    intro f₂ q h₁ h₂
    match q with
    | [] => cases f₂ <;> rfl
    | n :: rest =>
      have hn := one_le_nodeSize n
      have hr := one_le_listSize rest
      have hs : listSize (n :: rest) = 1 + nodeSize n + listSize rest := rfl
      match f₂ with
      | 0 => exfalso; omega
      | g + 1 =>
        have happ := listSize_append rest (children n)
        have hch := listSize_children_le n
        show n :: walkF f (rest ++ children n) = n :: walkF g (rest ++ children n)
        have := ih g (rest ++ children n) (by omega) (by omega)
        rw [this]

/-- Embedding of Python's `ast.walk`, generalised (as the loop itself is)
to an arbitrary initial queue of nodes. -/
def walk (q : List Node) : List Node := walkF (listSize q) q

theorem walk_nil : walk [] = [] := rfl

theorem walk_cons (n : Node) (rest : List Node) :
    walk (n :: rest) = n :: walk (rest ++ children n) := by
  have hn := one_le_nodeSize n
  have hr := one_le_listSize rest
  have hs : listSize (n :: rest) = 1 + nodeSize n + listSize rest := rfl
  have happ := listSize_append rest (children n)
  have hch := listSize_children_le n
  show walkF (listSize (n :: rest)) (n :: rest) = _
  rw [hs]
  have h1 : 1 + nodeSize n + listSize rest = (nodeSize n + listSize rest) + 1 := by omega
  rw [h1]
  show n :: walkF (nodeSize n + listSize rest) (rest ++ children n) = _
  rw [walkF_congr (nodeSize n + listSize rest) (listSize (rest ++ children n))
        (rest ++ children n) (by omega) (by omega)]
  rfl

/-- Fuelled preorder (source-text order) traversal, the specification-side
counterpart of `walk`. -/
def preorderF : Nat → List Node → List Node
  | _, [] => []
  | 0, _ :: _ => []
  | f + 1, n :: rest => n :: (preorderF f (children n) ++ preorderF f rest)

theorem preorderF_congr : ∀ (f₁ f₂ : Nat) (q : List Node),
    listSize q ≤ f₁ + 1 → listSize q ≤ f₂ + 1 → preorderF f₁ q = preorderF f₂ q := by
  intro f₁
  induction f₁ with
  | zero =>
    intro f₂ q h₁ h₂
    match q with
    | [] => cases f₂ <;> rfl
    | n :: rest =>
      exfalso
      have hn := one_le_nodeSize n
      have hr := one_le_listSize rest
      have hs : listSize (n :: rest) = 1 + nodeSize n + listSize rest := rfl
      omega
  | succ f ih =>
    intro f₂ q h₁ h₂
    match q with
    | [] => cases f₂ <;> rfl
    | n :: rest =>
      have hn := one_le_nodeSize n
      have hr := one_le_listSize rest
      have hs : listSize (n :: rest) = 1 + nodeSize n + listSize rest := rfl
      match f₂ with
      | 0 => exfalso; omega
      | g + 1 =>
        have hch := listSize_children_le n
        have hcl := one_le_listSize (children n)
        show n :: (preorderF f (children n) ++ preorderF f rest) =
             n :: (preorderF g (children n) ++ preorderF g rest)
        rw [ih g (children n) (by omega) (by omega), ih g rest (by omega) (by omega)]

/-- Preorder traversal of a queue of trees: each node, then its subtree,
in source order. -/
def preorder (q : List Node) : List Node := preorderF (listSize q) q

theorem preorder_nil : preorder [] = [] := rfl

theorem preorder_cons (n : Node) (rest : List Node) :
    preorder (n :: rest) = n :: (preorder (children n) ++ preorder rest) := by
  have hn := one_le_nodeSize n
  have hr := one_le_listSize rest
  have hs : listSize (n :: rest) = 1 + nodeSize n + listSize rest := rfl
  have hch := listSize_children_le n
  have hcl := one_le_listSize (children n)
  show preorderF (listSize (n :: rest)) (n :: rest) = _
  rw [hs]
  have h1 : 1 + nodeSize n + listSize rest = (nodeSize n + listSize rest) + 1 := by omega
  rw [h1]
  show n :: (preorderF (nodeSize n + listSize rest) (children n) ++
             preorderF (nodeSize n + listSize rest) rest) = _
  rw [preorderF_congr (nodeSize n + listSize rest) (listSize (children n))
        (children n) (by omega) (by omega),
      preorderF_congr (nodeSize n + listSize rest) (listSize rest) rest (by omega) (by omega)]
  rfl

/-- All nodes of the subtree rooted at `n`, in source-text (preorder)
order; `n` itself included. -/
def allNodes (n : Node) : List Node := preorder [n]

theorem allNodes_def (n : Node) : allNodes n = n :: preorder (children n) := by
  show preorder [n] = _
  rw [preorder_cons, preorder_nil, List.append_nil]

theorem preorder_append (l₁ l₂ : List Node) :
    preorder (l₁ ++ l₂) = preorder l₁ ++ preorder l₂ := by
  induction l₁ with
  | nil => rw [preorder_nil]; rfl
  | cons n rest ih =>
    rw [List.cons_append, preorder_cons, preorder_cons, ih, List.cons_append,
      List.append_assoc]

theorem walk_perm_preorder : ∀ q : List Node, List.Perm (walk q) (preorder q) := by
  suffices h : ∀ (N : Nat) (q : List Node), listSize q ≤ N → List.Perm (walk q) (preorder q) by
    intro q
    exact h (listSize q) q le_rfl
  intro N
  induction N with
  | zero =>
    intro q hq
    have := one_le_listSize q
    omega
  | succ N ih =>
    intro q hq
    match q with
    | [] => rw [walk_nil, preorder_nil]
    | n :: rest =>
      have hn := one_le_nodeSize n
      have hr := one_le_listSize rest
      have hs : listSize (n :: rest) = 1 + nodeSize n + listSize rest := rfl
      have happ := listSize_append rest (children n)
      have hch := listSize_children_le n
      rw [walk_cons, preorder_cons]
      have hp := ih (rest ++ children n) (by omega)
      exact List.Perm.cons n
        (hp.trans (by rw [preorder_append]; exact List.perm_append_comm))

theorem mem_preorder_of_mem_allNodes :
    ∀ (N : Nat) (q : List Node), listSize q ≤ N →
      ∀ n m : Node, n ∈ preorder q → m ∈ allNodes n → m ∈ preorder q := by
  intro N
  induction N with
  | zero =>
    intro q hq
    have := one_le_listSize q
    omega
  | succ N ih =>
    intro q hq n m hn hm
    match q with
    | [] => rw [preorder_nil] at hn; cases hn
    | n₀ :: rest =>
      have h1 := one_le_nodeSize n₀
      have hr := one_le_listSize rest
      have hs : listSize (n₀ :: rest) = 1 + nodeSize n₀ + listSize rest := rfl
      have hch := listSize_children_le n₀
      rw [preorder_cons] at hn ⊢
      rcases List.mem_cons.mp hn with h | h
      · subst h
        rw [allNodes_def] at hm
        rcases List.mem_cons.mp hm with h' | h'
        · subst h'
          exact List.mem_cons_self _ _
        · exact List.mem_cons_of_mem _ (List.mem_append_left _ h')
      · rcases List.mem_append.mp h with h' | h'
        · have := ih (children n₀) (by omega) n m h' hm
          exact List.mem_cons_of_mem _ (List.mem_append_left _ this)
        · have := ih rest (by omega) n m h' hm
          exact List.mem_cons_of_mem _ (List.mem_append_right _ this)

theorem allNodes_trans {t c f : Node} (hc : c ∈ allNodes t) (hf : f ∈ allNodes c) :
    f ∈ allNodes t :=
  mem_preorder_of_mem_allNodes (listSize [t]) [t] le_rfl c f hc hf

theorem walk_childless : ∀ l : List Node, (∀ s ∈ l, children s = []) → walk l = l := by
  intro l
  induction l with
  | nil => intro _; exact walk_nil
  | cons s rest ih =>
    intro h
    rw [walk_cons, h s (List.mem_cons_self _ _), List.append_nil,
      ih (fun x hx => h x (List.mem_cons_of_mem _ hx))]

/-- Flattening map over a list, used to describe the per-statement import
records the scanner's inner loops append. -/
def concatMap (f : α → List β) : List α → List β
  | [] => []
  | a :: l => f a ++ concatMap f l

theorem concatMap_append (f : α → List β) (l₁ l₂ : List α) :
    concatMap f (l₁ ++ l₂) = concatMap f l₁ ++ concatMap f l₂ := by
  induction l₁ with
  | nil => rfl
  | cons a l ih => simp [concatMap, ih]

/-- Python list indexing `l[i]`, including the negative-index convention:
`some` is the retrieved element, `none` is an `IndexError`. -/
def pyGet (l : List String) (i : Int) : Option String :=
  if 0 ≤ i then l.get? i.toNat
  else if 0 ≤ i + l.length then l.get? (i + l.length).toNat
  else none

/-- The span dictionary returned by `get_node_line_numbers`. -/
structure Span where
  line_start : Int
  line_end : Int
  col_start : Int
  col_end : Int
deriving DecidableEq, Repr

/-- Embedding of `get_node_line_numbers(node, source_lines)`.  The Python
`try` block can only raise on the `source_lines[line_end-1]` access (every
attribute access is `hasattr`-guarded), and that access happens only when
`end_col_offset` is missing; the `except` arm then overwrites all three of
`line_end`, `col_start`, `col_end`. -/
def get_node_line_numbers (node : PosInfo) (source_lines : List String) : Span :=
  let line_start := node.lineno
  let line_end := node.end_lineno.getD node.lineno
  let col_start := node.col_offset.getD 0
  match node.end_col_offset with
  | some c =>
    { line_start := line_start, line_end := line_end,
      col_start := col_start, col_end := c }
  | none =>
    match pyGet source_lines (line_end - 1) with
    | some line =>
      { line_start := line_start, line_end := line_end,
        col_start := col_start, col_end := (line.length : Int) }
    | none =>
      { line_start := line_start, line_end := line_start,
        col_start := 0, col_end := 0 }

/-- `source.split('\n') if source else []`: Python treats both `None` and
the empty string as falsy. -/
def sourceLines (source : Option String) : List String :=
  match source with
  | none => []
  | some s => if s = "" then [] else s.splitOn "\n"

/-- One entry of a class's `methods` list. -/
structure MethodRecord where
  name : String
  is_async : Bool
  location : Span
deriving DecidableEq, Repr

/-- One entry of a file's `items` list.  The Python code emits a dict with
a `"type"` discriminator; class dicts carry no `is_async` key, which is
modelled by `is_async : Option Bool` being `none` for classes. -/
structure DeclItem where
  type : String
  name : String
  is_async : Option Bool
  location : Span
  methods : List MethodRecord
deriving DecidableEq, Repr

/-- `isinstance(node, (ast.FunctionDef, ast.AsyncFunctionDef))`. -/
def isFuncLike : Node → Bool
  | .functionDef _ _ _ => true
  | .asyncFunctionDef _ _ _ => true
  | _ => false

/-- `isinstance(node, (ast.FunctionDef, ast.AsyncFunctionDef, ast.ClassDef))`. -/
def isDeclNode : Node → Bool
  | .functionDef _ _ _ => true
  | .asyncFunctionDef _ _ _ => true
  | .classDef _ _ _ => true
  | _ => false

/-- `isinstance(node, ast.ClassDef)`. -/
def isClassNode : Node → Bool
  | .classDef _ _ _ => true
  | _ => false

/-- `isinstance(node, (ast.Import, ast.ImportFrom))`. -/
def isImportNode : Node → Bool
  | .importStmt _ _ => true
  | .importFrom _ _ _ => true
  | _ => false

/-- The method dict the inner class loop appends for one walked node:
`some` for the function-like nodes it matches, `none` for every other node
(including the class node itself, which the loop's `child_node != node`
guard and its `isinstance` check both exclude). -/
def methodOf (sl : List String) : Node → Option MethodRecord
  | .functionDef nm _ p =>
    some { name := nm, is_async := false, location := get_node_line_numbers p sl }
  | .asyncFunctionDef nm _ p =>
    some { name := nm, is_async := true, location := get_node_line_numbers p sl }
  | _ => none

/-- The `methods` list built for a class node: a second, independent
`ast.walk` over the class's own subtree. -/
def class_methods (c : Node) (sl : List String) : List MethodRecord :=
  (walk [c]).filterMap (methodOf sl)

/-- The dict `extract_functions_classes` appends for one walked node
(`none` when the node is not a function/async-function/class). -/
def declItemOf (sl : List String) : Node → Option DeclItem
  | .classDef nm body p =>
    some { type := "Class", name := nm, is_async := none,
           location := get_node_line_numbers p sl,
           methods := class_methods (.classDef nm body p) sl }
  | .functionDef nm _ p =>
    some { type := "Function", name := nm, is_async := some false,
           location := get_node_line_numbers p sl, methods := [] }
  | .asyncFunctionDef nm _ p =>
    some { type := "Function", name := nm, is_async := some true,
           location := get_node_line_numbers p sl, methods := [] }
  | _ => none

/-- Embedding of `extract_functions_classes(tree, source)`. -/
def extract_functions_classes (tree : Option Node) (source : Option String) :
    List DeclItem :=
  match tree with
  | none => []
  | some t => (walk [t]).filterMap (declItemOf (sourceLines source))

/-- One entry of a file's `imports` list: the `"type": "import"` dicts
(`plain`) and the `"type": "importfrom"` dicts (`fromImport`). -/
inductive ImportItem where
  | plain (module : String) (name : String)
  | fromImport (module : String) (name : String) (asname : Option String)
deriving DecidableEq, Repr

/-- The import dicts the loop body appends for one walked node: one per
alias for `ast.Import` (`name` is `asname or name`), one per alias for
`ast.ImportFrom` (module is `node.module or ""`). -/
def nodeImports : Node → List ImportItem
  | .importStmt names _ =>
    names.map (fun a => .plain a.name (a.asname.getD a.name))
  | .importFrom mod names _ =>
    names.map (fun a => .fromImport (mod.getD "") a.name a.asname)
  | _ => []

/-- Embedding of `find_imports_and_relations(tree, source, file_path)`
(the two trailing arguments are unused by the Python body as well). -/
def find_imports_and_relations (tree : Option Node) (_source : Option String)
    (_file_path : String) : List ImportItem :=
  match tree with
  | none => []
  | some t => concatMap nodeImports (walk [t])

/-- The Python exceptions relevant to `parse_code`: `OSError` (permission
or transient I/O failure while opening/reading), `UnicodeDecodeError`
(undecodable bytes) and `SyntaxError` (unparsable source). -/
inductive PyExc where
  | osError
  | unicodeDecodeError
  | syntaxError
deriving DecidableEq, Repr

/-- Which exceptions the `except (SyntaxError, UnicodeDecodeError)` clause
of `parse_code` catches. -/
def handled : PyExc → Bool
  | .syntaxError => true
  | .unicodeDecodeError => true
  | .osError => false

/-- One file's interaction with the outside world: what `open`+`read`
yields (the decoded text, or the exception raised), and what `ast.parse`
yields on that text (the tree, or the exception raised).  Both outcomes
are external to the scanner and are therefore carried as data. -/
structure SourceFile where
  readResult : Except PyExc String
  parseResult : Except PyExc Node

/-- Embedding of `parse_code(file_path)`: the `try` body reads the file
and parses it; an exception raised by either step is caught and turned
into `(None, None)` only when `handled`, and propagates otherwise. -/
def parse_code (f : SourceFile) : Except PyExc (Option Node × Option String) :=
  match f.readResult with
  | .error e => if handled e then .ok (none, none) else .error e
  | .ok source =>
    match f.parseResult with
    | .error e => if handled e then .ok (none, none) else .error e
    | .ok tree => .ok (some tree, some source)

/-- Prefix test on character lists (Boolean). -/
def isPre : List Char → List Char → Bool
  | [], _ => true
  | _ :: _, [] => false
  | a :: as, b :: bs => (a == b) && isPre as bs

/-- Python's substring test `pat in s`, on character lists: does `pat`
occur as a prefix of some suffix of `s`? -/
def strIn (pat : List Char) : List Char → Bool
  | [] => isPre pat []
  | c :: t => isPre pat (c :: t) || strIn pat t

/-- `str(path)` for a path given by its components (POSIX separator). -/
def joinSegs : List String → String
  | [] => ""
  | [s] => s
  | s :: rest => s ++ "/" ++ joinSegs rest

/-- One candidate file as `Path.rglob("*.py")` yields it: its path
components (relative to the working directory, app directory included),
the canonical absolute path string, and its read/parse outcomes. -/
structure FileEntry where
  segments : List String
  absolutePath : String
  src : SourceFile

/-- `py_file.name`: the final path component. -/
def fileName (f : FileEntry) : String := f.segments.getLastD ""

/-- The migration-skip test of `generate_project_structure_json`:
`"migrations" in str(py_file) and py_file.name != "__init__.py"`. -/
def should_skip (f : FileEntry) : Bool :=
  strIn "migrations".toList (joinSegs f.segments).toList
    && fileName f != "__init__.py"

/-- The per-file dict appended to an app's `files` list. -/
structure FileData where
  name : String
  relative_path : String
  absolute_path : String
  items : List DeclItem
  imports : List ImportItem
deriving DecidableEq, Repr

/-- The body of the per-file loop of `generate_project_structure_json`
(after the skip test): path fields, then `parse_code`, then the two
extractors.  An exception escaping `parse_code` escapes the loop. -/
def scanFile (f : FileEntry) : Except PyExc FileData :=
  match parse_code f.src with
  | .error e => .error e
  | .ok (tree, source) =>
    .ok { name := fileName f,
          relative_path := joinSegs f.segments,
          absolute_path := f.absolutePath,
          items := extract_functions_classes tree source,
          imports := find_imports_and_relations tree source (joinSegs f.segments) }

/-- One root directory as handed to the aggregator: its `.name`, its
`str(app_path)`, and the `.py` files found under it in enumeration
order. -/
structure AppInput where
  name : String
  pathStr : String
  files : List FileEntry

/-- The per-app dict appended to the project's `apps` list. -/
structure AppData where
  name : String
  path : String
  files : List FileData
deriving DecidableEq, Repr

/-- A `for` loop that appends `g x` for each element and lets a raised
exception escape: the sequencing of the scanner's file and app loops. -/
def mapExc (g : α → Except PyExc β) : List α → Except PyExc (List β)
  | [] => .ok []
  | a :: l =>
    match g a with
    | .error e => .error e
    | .ok b =>
      match mapExc g l with
      | .error e => .error e
      | .ok bs => .ok (b :: bs)

/-- The app loop of `generate_project_structure_json` for one root:
filter out skipped files, scan the rest in order. -/
def processApp (app : AppInput) : Except PyExc AppData :=
  match mapExc scanFile (app.files.filter (fun f => !should_skip f)) with
  | .error e => .error e
  | .ok files =>
    .ok { name := app.name, path := app.pathStr, files := files }

/-- The returned `project_data` dict. -/
structure Project where
  generated_at : String
  apps : List AppData
deriving DecidableEq, Repr

/-- Embedding of `generate_project_structure_json(app_paths, output_file)`.
With an empty `app_paths` the Python function prints a message and
executes a bare `return`, i.e. it returns `None` (modelled `none`) and
scans nothing; otherwise it scans every root and returns the project
dict.  The JSON serialisation to `output_file` is a boundary effect and is
not modelled; `datetime.now().isoformat()` is passed in as `timestamp`. -/
def generate_project_structure_json (app_paths : List AppInput)
    (timestamp : String) : Except PyExc (Option Project) :=
  if app_paths.isEmpty then .ok none
  else
    match mapExc processApp app_paths with
    | .error e => .error e
    | .ok apps => .ok (some { generated_at := timestamp, apps := apps })

theorem length_filterMap_eq_length_filter (f : α → Option β) :
    ∀ l : List α, (l.filterMap f).length = (l.filter (fun a => (f a).isSome)).length := by
  intro l
  induction l with
  | nil => rfl
  | cons a l ih => cases h : f a <;> simp [List.filterMap_cons, List.filter_cons, h, ih]

theorem declItemOf_isSome (sl : List String) (n : Node) :
    (declItemOf sl n).isSome = isDeclNode n := by
  cases n <;> rfl

theorem methodOf_isSome (sl : List String) (n : Node) :
    (methodOf sl n).isSome = isFuncLike n := by
  cases n <;> rfl

theorem toList_append (a b : String) : (a ++ b).toList = a.toList ++ b.toList :=
  String.data_append a b

theorem isPre_append_self : ∀ l r : List Char, isPre l (l ++ r) = true := by
  intro l r
  induction l with
  | nil => rfl
  | cons c t ih => simp [isPre, ih]

theorem strIn_self_append (pat suf : List Char) : strIn pat (pat ++ suf) = true := by
  cases h : pat ++ suf with
  | nil =>
    have hp : pat = [] := (List.append_eq_nil.mp h).1
    subst hp
    rfl
  | cons c t =>
    show (isPre pat (c :: t) || strIn pat t) = true
    rw [← h, isPre_append_self]
    rfl

theorem strIn_append_left (pat t : List Char) (h : strIn pat t = true) :
    ∀ pre : List Char, strIn pat (pre ++ t) = true := by
  intro pre
  induction pre with
  | nil => exact h
  | cons c p ih =>
    show (isPre pat (c :: (p ++ t)) || strIn pat (p ++ t)) = true
    rw [ih, Bool.or_true]

theorem mem_joinSegs_strIn (s : String) : ∀ segs : List String, s ∈ segs →
    strIn s.toList (joinSegs segs).toList = true := by
  intro segs
  induction segs with
  | nil => intro h; cases h
  | cons a rest ih =>
    intro h
    rcases List.mem_cons.mp h with rfl | h'
    · cases rest with
      | nil =>
        have := strIn_self_append s.toList []
        simpa using this
      | cons b r =>
        show strIn s.toList (s ++ "/" ++ joinSegs (b :: r)).toList = true
        rw [show s ++ "/" ++ joinSegs (b :: r) = s ++ ("/" ++ joinSegs (b :: r)) from
              (String.append_assoc s "/" (joinSegs (b :: r))),
          toList_append]
        exact strIn_self_append _ _
    · cases rest with
      | nil => cases h'
      | cons b r =>
        have hr := ih h'
        show strIn s.toList (a ++ "/" ++ joinSegs (b :: r)).toList = true
        rw [toList_append]
        exact strIn_append_left _ _ hr _

/-- C7: for every source file that parses successfully, each function,
async-function and class declaration node in the tree, at any nesting
depth, yields exactly one record in the output `items` list — none
omitted, none duplicated: the output is a permutation of the one-record-
per-declaration-node list read off the tree in source order, its length
equals the number of declaration nodes in the tree, and a node contributes
a record exactly when it is a declaration node. -/
theorem extract_emits_each_declaration_once (t : Node) (src : Option String) :
    List.Perm (extract_functions_classes (some t) src)
      ((allNodes t).filterMap (declItemOf (sourceLines src))) ∧
    (extract_functions_classes (some t) src).length
      = ((allNodes t).filter (fun n => isDeclNode n)).length ∧
    (∀ n : Node, (declItemOf (sourceLines src) n).isSome = isDeclNode n) := by
  have hperm : List.Perm (extract_functions_classes (some t) src)
      ((allNodes t).filterMap (declItemOf (sourceLines src))) :=
    (walk_perm_preorder [t]).filterMap _
  refine ⟨hperm, ?_, declItemOf_isSome _⟩
  rw [hperm.length_eq, length_filterMap_eq_length_filter]
  congr 1
  apply List.filter_congr
  intro n _
  exact declItemOf_isSome _ n

/-- C6: a class declaration's `methods` list contains exactly the
function-like descendants found anywhere in the class node's subtree
(`allNodes`), at any depth: it is a permutation of the per-node method
records over the subtree; a node contributes exactly when it is
function-like; the class node itself contributes nothing; and the class's
own output record carries precisely this list. -/
theorem class_methods_are_exactly_subtree_functions (nm : String)
    (body : List Node) (p : PosInfo) (sl : List String) :
    List.Perm (class_methods (.classDef nm body p) sl)
      ((allNodes (.classDef nm body p)).filterMap (methodOf sl)) ∧
    (∀ n : Node, (methodOf sl n).isSome = isFuncLike n) ∧
    methodOf sl (.classDef nm body p) = none ∧
    ∀ r : DeclItem, declItemOf sl (.classDef nm body p) = some r →
      r.methods = class_methods (.classDef nm body p) sl := by
  refine ⟨(walk_perm_preorder [.classDef nm body p]).filterMap _,
    methodOf_isSome sl, rfl, ?_⟩
  intro r h
  injection h with h'
  subst h'
  rfl

/-- C10: a function-like node `f` lying anywhere inside the subtree of a
class node `c` of the tree is reported twice: its own `Function` record is
in the file's `items` list, and its method record is in the `methods` list
of the record of `c` — for every such enclosing class `c`, nested classes
included. -/
theorem nested_function_reported_in_file_and_class (t : Node)
    (src : Option String) (c f : Node) (hc : c ∈ allNodes t)
    (hcC : isClassNode c = true) (hf : f ∈ allNodes c)
    (_hfF : isFuncLike f = true) :
    (∀ it : DeclItem, declItemOf (sourceLines src) f = some it →
        it ∈ extract_functions_classes (some t) src) ∧
    ∀ cit : DeclItem, declItemOf (sourceLines src) c = some cit →
      cit ∈ extract_functions_classes (some t) src ∧
      ∀ m : MethodRecord, methodOf (sourceLines src) f = some m →
        m ∈ cit.methods := by
  have hft : f ∈ allNodes t := allNodes_trans hc hf
  constructor
  · intro it hit
    show it ∈ (walk [t]).filterMap (declItemOf (sourceLines src))
    exact List.mem_filterMap.mpr
      ⟨f, (walk_perm_preorder [t]).mem_iff.mpr hft, hit⟩
  · intro cit hcit
    constructor
    · show cit ∈ (walk [t]).filterMap (declItemOf (sourceLines src))
      exact List.mem_filterMap.mpr
        ⟨c, (walk_perm_preorder [t]).mem_iff.mpr hc, hcit⟩
    · intro m hm
      cases c with
      | classDef nm body p =>
        injection hcit with h'
        subst h'
        show m ∈ class_methods (.classDef nm body p) (sourceLines src)
        exact List.mem_filterMap.mpr
          ⟨f, (walk_perm_preorder [Node.classDef nm body p]).mem_iff.mpr hf, hm⟩
      | module b => simp [isClassNode] at hcC
      | functionDef a b d => simp [isClassNode] at hcC
      | asyncFunctionDef a b d => simp [isClassNode] at hcC
      | importStmt a b => simp [isClassNode] at hcC
      | importFrom a b d => simp [isClassNode] at hcC
      | otherStmt a b => simp [isClassNode] at hcC

/-- Inner function of the C10 witness tree: `def g` nested two classes
deep. -/
def wInner : Node := .functionDef "g" [] ⟨3, some 8, some 3, some 16⟩

/-- Nested class `B` of the C10 witness tree. -/
def wClsB : Node := .classDef "B" [wInner] ⟨2, some 4, some 3, some 16⟩

/-- Outer class `A` of the C10 witness tree. -/
def wClsA : Node := .classDef "A" [wClsB] ⟨1, some 0, some 3, some 16⟩

/-- Module `class A: class B: def g(): ...` exercising C10. -/
def wTree : Node := .module [wClsA]

/-- Witness for C10 at a concrete nested input: `g`'s standalone record is
in the file's items, the record of the outer class `A` is in the items,
and `g`'s method record is inside `A.methods` even though `g` is declared
in the inner class `B`. -/
theorem nested_function_reported_witness :
    DeclItem.mk "Function" "g" (some false) ⟨3, 3, 8, 16⟩ []
        ∈ extract_functions_classes (some wTree) none ∧
    DeclItem.mk "Class" "A" none ⟨1, 3, 0, 16⟩ (class_methods wClsA [])
        ∈ extract_functions_classes (some wTree) none ∧
    MethodRecord.mk "g" false ⟨3, 3, 8, 16⟩
        ∈ (DeclItem.mk "Class" "A" none ⟨1, 3, 0, 16⟩ (class_methods wClsA [])).methods := by
  have hc : wClsA ∈ allNodes wTree := by
    show wClsA ∈ wTree :: wClsA :: wClsB :: wInner :: []
    exact List.Mem.tail _ (List.Mem.head _)
  have hf : wInner ∈ allNodes wClsA := by
    show wInner ∈ wClsA :: wClsB :: wInner :: []
    exact List.Mem.tail _ (List.Mem.tail _ (List.Mem.head _))
  have h := nested_function_reported_in_file_and_class wTree none wClsA wInner
    hc rfl hf rfl
  exact ⟨h.1 _ rfl, (h.2 _ rfl).1, (h.2 _ rfl).2 _ rfl⟩

/-- C9: the scan is deterministic and the generation timestamp is the only
run-dependent datum: two runs of the aggregator over the same inputs with
different timestamps produce identical `apps` contents (all file records,
declarations and imports included); the extraction itself is a pure
function of the tree and source. -/
theorem generate_output_depends_only_on_inputs_and_timestamp
    (roots : List AppInput) (ts1 ts2 : String) :
    (generate_project_structure_json roots ts1).map (fun p => p.map Project.apps)
      = (generate_project_structure_json roots ts2).map (fun p => p.map Project.apps) := by
  unfold generate_project_structure_json
  cases hE : roots.isEmpty
  · simp only [hE, Bool.false_eq_true, if_false]
    cases hm : mapExc processApp roots <;> rfl
  · simp only [hE, if_true]

/-- C8: every span the location resolver produces for a node whose
metadata is parser-well-formed (`end_lineno`, when present, is at least
`lineno`) satisfies `line_start ≤ line_end`; and whenever the node lacks
end-position metadata (`end_lineno` absent), `line_end` equals
`line_start` unconditionally. -/
theorem span_line_start_le_line_end (node : PosInfo) (lines : List String)
    (hwf : ∀ e : Int, node.end_lineno = some e → node.lineno ≤ e) :
    (get_node_line_numbers node lines).line_start
        ≤ (get_node_line_numbers node lines).line_end ∧
    (node.end_lineno = none →
      (get_node_line_numbers node lines).line_end
        = (get_node_line_numbers node lines).line_start) := by
  unfold get_node_line_numbers
  cases hE : node.end_lineno with
  | none =>
    cases hC : node.end_col_offset with
    | some c => simp [hE, hC]
    | none =>
      cases hG : pyGet lines (node.lineno - 1) with
      | some line => simp [hE, hC, hG]
      | none => simp [hE, hC, hG]
  | some e =>
    have he := hwf e hE
    cases hC : node.end_col_offset with
    | some c => simp [hE, hC, he]
    | none =>
      cases hG : pyGet lines (e - 1) with
      | some line => simp [hE, hC, hG, he]
      | none => simp [hE, hC, hG]

/-- Witness for C8 at a concrete node with end metadata (2 ≤ 5) and at a
concrete node without it (degenerate 7 = 7 span). -/
theorem span_line_start_le_line_end_witness :
    ((get_node_line_numbers ⟨2, some 0, some 5, some 10⟩ []).line_start
        ≤ (get_node_line_numbers ⟨2, some 0, some 5, some 10⟩ []).line_end ∧
      (PosInfo.end_lineno ⟨2, some 0, some 5, some 10⟩ = none →
        (get_node_line_numbers ⟨2, some 0, some 5, some 10⟩ []).line_end
          = (get_node_line_numbers ⟨2, some 0, some 5, some 10⟩ []).line_start)) ∧
    (get_node_line_numbers ⟨7, some 1, none, none⟩ ["ab"]).line_end
        = (get_node_line_numbers ⟨7, some 1, none, none⟩ ["ab"]).line_start := by
  constructor
  · exact span_line_start_le_line_end ⟨2, some 0, some 5, some 10⟩ []
      (by intro e he; simp at he; subst he; decide)
  · exact (span_line_start_le_line_end ⟨7, some 1, none, none⟩ ["ab"]
      (by intro e he; simp at he)).2 rfl

/-- Concrete node refuting C4's `col_start = 0` fallback: start-position
metadata present (`col_offset = 5`), end-position metadata absent. -/
def c4pos : PosInfo := ⟨1, some 5, none, none⟩

/-- Counterexample to C4 as stated: for a node without end-position
metadata the resolver does not zero `col_start`; it keeps the node's
recorded `col_offset` (here 5), so the produced fallback span is
`(1, 1, 5, 11)` and its `col_start` differs from the claimed 0. -/
theorem location_fallback_colstart_counterexample :
    get_node_line_numbers c4pos ["hello world"] = ⟨1, 1, 5, 11⟩ ∧
    (get_node_line_numbers c4pos ["hello world"]).col_start ≠ 0 ∧
    c4pos.end_lineno = none ∧ c4pos.end_col_offset = none := by decide

/-- C4 (amended): the resolver is total and, when end-position metadata is
absent, produces `line_end = line_start`, keeps `col_start` equal to the
node's recorded column offset (0 only if that too is absent) and sets
`col_end` to the length of the line at `line_end` when that line is
resolvable; an indexing failure while computing the fallback degrades to
`col_start = 0` and `col_end = 0` rather than propagating. -/
theorem location_fallback (node : PosInfo) (lines : List String)
    (h1 : node.end_lineno = none) (h2 : node.end_col_offset = none) :
    (∀ line : String, pyGet lines (node.lineno - 1) = some line →
        get_node_line_numbers node lines
          = ⟨node.lineno, node.lineno, node.col_offset.getD 0, (line.length : Int)⟩) ∧
    (pyGet lines (node.lineno - 1) = none →
        get_node_line_numbers node lines = ⟨node.lineno, node.lineno, 0, 0⟩) := by
  constructor
  · intro line hline
    unfold get_node_line_numbers
    simp [h1, h2, hline]
  · intro hnone
    unfold get_node_line_numbers
    simp [h1, h2, hnone]

/-- Witness for C4's amended fallback: a resolvable line (keeping
`col_start = 5`) and an unresolvable one (zeroed span). -/
theorem location_fallback_witness :
    get_node_line_numbers c4pos ["hello world"] = ⟨1, 1, 5, 11⟩ ∧
    get_node_line_numbers ⟨7, some 3, none, none⟩ ["ab"] = ⟨7, 7, 0, 0⟩ := by
  constructor
  · exact (location_fallback c4pos ["hello world"] rfl rfl).1 "hello world" (by decide)
  · exact (location_fallback ⟨7, some 3, none, none⟩ ["ab"] rfl rfl).2 (by decide)

/-- C1 (amended): only a decode failure (`UnicodeDecodeError`) raised
while reading, or a `SyntaxError` raised while parsing, is treated as
parse failure — `parse_code` returns the absent `(None, None)` signal.  A
filesystem read failure (`OSError`: permission error, transient I/O
error) is not caught: the exception escapes `parse_code`. -/
theorem parse_code_exception_policy (pr : Except PyExc Node) :
    parse_code ⟨.error .unicodeDecodeError, pr⟩ = .ok (none, none) ∧
    parse_code ⟨.error .osError, pr⟩ = .error .osError ∧
    ∀ src : String,
      parse_code ⟨.ok src, .error .syntaxError⟩ = .ok (none, none) ∧
      parse_code ⟨.ok src, .error .osError⟩ = .error .osError ∧
      ∀ tree : Node, parse_code ⟨.ok src, .ok tree⟩ = .ok (some tree, some src) :=
  ⟨rfl, rfl, fun _ => ⟨rfl, rfl, fun _ => rfl⟩⟩

/-- A file whose read raises `OSError` (permission / transient I/O). -/
def c1File : SourceFile := ⟨.error .osError, .error .osError⟩

/-- The failing file as a scan candidate. -/
def c1Bad : FileEntry := ⟨["app", "models.py"], "/proj/app/models.py", c1File⟩

/-- A healthy sibling file enumerated after the failing one. -/
def c1Good : FileEntry := ⟨["app", "views.py"], "/proj/app/views.py",
  ⟨.ok "", .ok (.module [])⟩⟩

/-- Counterexample to C1 as stated: on a filesystem read failure
(`OSError`) the parser adapter does not return the absent signal — the
exception crosses its boundary — and the aggregate scan aborts instead of
continuing with the remaining files (the healthy sibling contributes
nothing). -/
theorem parse_code_read_failure_counterexample :
    parse_code c1File = .error .osError ∧
    parse_code c1File ≠ .ok (none, none) ∧
    generate_project_structure_json [⟨"app", "app", [c1Bad, c1Good]⟩] "t"
      = .error .osError := by
  refine ⟨rfl, ?_, rfl⟩
  intro h
  rw [show parse_code c1File = .error .osError from rfl] at h
  exact Except.noConfusion h

theorem mapExc_processApp_all_empty : ∀ l : List AppInput,
    (∀ app ∈ l, app.files = []) →
    mapExc processApp l = .ok (l.map fun app => ⟨app.name, app.pathStr, []⟩) := by
  intro l
  induction l with
  | nil => intro _; rfl
  | cons a rest ih =>
    intro h
    have ha : a.files = [] := h a (List.mem_cons_self _ _)
    have hpa : processApp a = .ok ⟨a.name, a.pathStr, []⟩ := by
      unfold processApp
      rw [ha]
      rfl
    have hrest := ih (fun x hx => h x (List.mem_cons_of_mem _ hx))
    simp only [mapExc, hpa, hrest, List.map_cons]

/-- C2 (amended): with an empty root list the aggregator returns no model
at all (Python `return` without a value, i.e. `None`) rather than a
`ProjectModel` with an empty `apps` sequence; this remains distinguishable
from a run whose roots contained zero qualifying files, which yields
`some` model with one app record (with an empty `files` list) per root —
in particular a non-empty `apps` sequence. -/
theorem generate_empty_input_vs_empty_apps (a : AppInput) (rest : List AppInput)
    (ts : String) (h : ∀ app ∈ a :: rest, app.files = []) :
    generate_project_structure_json [] ts = .ok none ∧
    generate_project_structure_json (a :: rest) ts
      = .ok (some ⟨ts, (a :: rest).map fun app => ⟨app.name, app.pathStr, []⟩⟩) := by
  refine ⟨rfl, ?_⟩
  unfold generate_project_structure_json
  rw [mapExc_processApp_all_empty _ h]
  rfl

/-- Counterexample to C2 as stated: for an empty root list the aggregator
returns `None` — there is no `ProjectModel` at all, so in particular none
whose `apps` sequence is empty. -/
theorem generate_empty_input_counterexample :
    generate_project_structure_json [] "2024-01-01T00:00:00" = .ok none ∧
    ¬ ∃ m : Project,
        generate_project_structure_json [] "2024-01-01T00:00:00" = .ok (some m) := by
  refine ⟨rfl, ?_⟩
  rintro ⟨m, hm⟩
  rw [show generate_project_structure_json [] "2024-01-01T00:00:00" = .ok none
        from rfl] at hm
  injection hm with h'
  exact Option.noConfusion h'

/-- Witness for C2's amended statement: empty input yields `none`; one
root with zero qualifying files yields `some` model with one empty app
record. -/
theorem generate_empty_input_vs_empty_apps_witness :
    generate_project_structure_json [] "ts" = .ok none ∧
    generate_project_structure_json [⟨"app1", "app1", []⟩] "ts"
      = .ok (some ⟨"ts", [⟨"app1", "app1", []⟩]⟩) := by
  have h := generate_empty_input_vs_empty_apps ⟨"app1", "app1", []⟩ [] "ts"
    (by intro app hp; rw [List.mem_singleton] at hp; subst hp; rfl)
  exact ⟨h.1, h.2⟩

/-- The module `def handler(): import z` followed by top-level
`import a`: in source text the import of `z` (line 2) precedes the import
of `a` (line 3). -/
def c3Tree : Node := .module
  [.functionDef "handler" [.importStmt [⟨"z", none⟩] ⟨2, some 4, some 2, some 12⟩]
      ⟨1, some 0, some 2, some 12⟩,
   .importStmt [⟨"a", none⟩] ⟨3, some 0, some 3, some 8⟩]

/-- The `lineno` of a node (0 for the module root, which has none). -/
def nodeLineno : Node → Int
  | .module _ => 0
  | .functionDef _ _ p => p.lineno
  | .asyncFunctionDef _ _ p => p.lineno
  | .classDef _ _ p => p.lineno
  | .importStmt _ p => p.lineno
  | .importFrom _ _ p => p.lineno
  | .otherStmt _ p => p.lineno

/-- Counterexample to C3 as stated: the extractor emits the line-3
top-level `import a` before the line-2 nested `import z` (breadth-first
walk order), while source-text order — the flattening of the tree in
preorder — lists `z` first; the two sequences differ, and the import
statements are visited with strictly decreasing line numbers `[3, 2]`. -/
theorem imports_source_order_counterexample :
    find_imports_and_relations (some c3Tree)
        (some "def handler():\n    import z\nimport a") "app/views.py"
      = [.plain "a" "a", .plain "z" "z"] ∧
    concatMap nodeImports (preorder [c3Tree])
      = [.plain "z" "z", .plain "a" "a"] ∧
    ((walk [c3Tree]).filter (fun n => isImportNode n)).map nodeLineno = [3, 2] ∧
    ([ImportItem.plain "a" "a", .plain "z" "z"] : List ImportItem)
      ≠ [.plain "z" "z", .plain "a" "a"] := by
  refine ⟨by decide, by decide, by decide, by decide⟩

theorem mem_preorder_self : ∀ (q : List Node) (s : Node), s ∈ q → s ∈ preorder q := by
  intro q
  induction q with
  | nil => intro s h; cases h
  | cons a rest ih =>
    intro s h
    rw [preorder_cons]
    rcases List.mem_cons.mp h with rfl | h'
    · exact List.mem_cons_self _ _
    · exact List.mem_cons_of_mem _ (List.mem_append_right _ (ih s h'))

theorem concatMap_eq_nil_of_forall_nil (f : α → List β) :
    ∀ l : List α, (∀ a ∈ l, f a = []) → concatMap f l = [] := by
  intro l
  induction l with
  | nil => intro _; rfl
  | cons a rest ih =>
    intro h
    show f a ++ concatMap f rest = []
    rw [h a (List.mem_cons_self _ _), ih (fun x hx => h x (List.mem_cons_of_mem _ hx))]
    rfl

theorem nodeImports_eq_nil (n : Node) (h : isImportNode n = false) :
    nodeImports n = [] := by
  cases n with
  | importStmt a p => simp [isImportNode] at h
  | importFrom m a p => simp [isImportNode] at h
  | module b => rfl
  | functionDef a b p => rfl
  | asyncFunctionDef a b p => rfl
  | classDef a b p => rfl
  | otherStmt a p => rfl

theorem find_imports_walk_flat : ∀ (N : Nat) (q : List Node), listSize q ≤ N →
    (∀ s ∈ q, ∀ n ∈ preorder (children s), isImportNode n = false) →
    concatMap nodeImports (walk q) = concatMap nodeImports q := by
  intro N
  induction N with
  | zero =>
    intro q hq
    have := one_le_listSize q
    omega
  | succ N ih =>
    intro q hq h
    match q with
    | [] => rfl
    | s :: rest =>
      have h1 := one_le_nodeSize s
      have hr := one_le_listSize rest
      have hs : listSize (s :: rest) = 1 + nodeSize s + listSize rest := rfl
      have happ := listSize_append rest (children s)
      have hch := listSize_children_le s
      rw [walk_cons]
      show nodeImports s ++ concatMap nodeImports (walk (rest ++ children s)) = _
      have hsub : ∀ s' ∈ rest ++ children s,
          ∀ n ∈ preorder (children s'), isImportNode n = false := by
        intro s' hs' n hn
        rcases List.mem_append.mp hs' with hmem | hmem
        · exact h s' (List.mem_cons_of_mem _ hmem) n hn
        · have hsp : s' ∈ preorder (children s) := mem_preorder_self _ _ hmem
          have hna : n ∈ allNodes s' := by
            rw [allNodes_def]
            exact List.mem_cons_of_mem _ hn
          exact h s (List.mem_cons_self _ _) n
            (mem_preorder_of_mem_allNodes (listSize (children s)) (children s)
              le_rfl s' n hsp hna)
      rw [ih (rest ++ children s) (by omega) hsub, concatMap_append]
      have hcs : concatMap nodeImports (children s) = [] := by
        apply concatMap_eq_nil_of_forall_nil
        intro c hc
        exact nodeImports_eq_nil c
          (h s (List.mem_cons_self _ _) c (mem_preorder_self _ _ hc))
      rw [hcs, List.append_nil]
      rfl

/-- C3 (amended): imports are emitted in breadth-first traversal order, so
for any file all of whose import statements are top-level — no import
node occurs strictly inside a top-level statement's subtree, while the
top-level statements themselves may be arbitrary functions, classes or
compound statements — the emitted sequence is exactly the per-statement
records in source order; the claim's concrete example
(`import a; from b import c as d; import e as f`) therefore holds as
stated. -/
theorem find_imports_top_level_order (stmts : List Node) (src : Option String)
    (path : String)
    (h : ∀ s ∈ stmts, ∀ n ∈ preorder (children s), isImportNode n = false) :
    find_imports_and_relations (some (.module stmts)) src path
      = concatMap nodeImports stmts := by
  show concatMap nodeImports (walk [.module stmts]) = _
  rw [walk_cons]
  show nodeImports (.module stmts) ++ concatMap nodeImports (walk stmts) = _
  rw [find_imports_walk_flat (listSize stmts) stmts le_rfl h]
  rw [show nodeImports (.module stmts) = [] from rfl, List.nil_append]

/-- The claim's example file (`import a; from b import c as d;
and `import e as f`) as three top-level statements. -/
def c3aStmts : List Node :=
  [.importStmt [⟨"a", none⟩] ⟨1, some 0, some 1, some 8⟩,
   .importFrom (some "b") [⟨"c", some "d"⟩] ⟨2, some 0, some 2, some 21⟩,
   .importStmt [⟨"e", some "f"⟩] ⟨3, some 0, some 3, some 13⟩]

/-- A file with an ordinary function body before a top-level import
(`def f(): pass` then `import a`): its only import is top-level but its
first statement is not a leaf. -/
def c3bStmts : List Node :=
  [.functionDef "f" [.otherStmt [] ⟨1, some 9, some 1, some 13⟩]
      ⟨1, some 0, some 1, some 13⟩,
   .importStmt [⟨"a", none⟩] ⟨2, some 0, some 2, some 8⟩]

/-- Witness for C3's amended statement: at the claim's own example the
output sequence is exactly `[PlainImport(a,a), FromImport(b,c,alias=d),
PlainImport(e,f)]`, and for a file containing a function definition
followed by a top-level `import a` the output is `[PlainImport(a,a)]` in
source order. -/
theorem find_imports_top_level_order_witness :
    (∀ s ∈ c3aStmts, ∀ n ∈ preorder (children s), isImportNode n = false) ∧
    find_imports_and_relations (some (.module c3aStmts))
        (some "import a\nfrom b import c as d\nimport e as f") "x.py"
      = [.plain "a" "a", .fromImport "b" "c" (some "d"), .plain "e" "f"] ∧
    (∀ s ∈ c3bStmts, ∀ n ∈ preorder (children s), isImportNode n = false) ∧
    find_imports_and_relations (some (.module c3bStmts))
        (some "def f(): pass\nimport a") "y.py"
      = [.plain "a" "a"] := by
  refine ⟨by decide, ?_, by decide, ?_⟩
  · exact (find_imports_top_level_order c3aStmts
      (some "import a\nfrom b import c as d\nimport e as f") "x.py"
      (by decide)).trans (by decide)
  · exact (find_imports_top_level_order c3bStmts
      (some "def f(): pass\nimport a") "y.py" (by decide)).trans (by decide)

/-- A file whose name merely contains the substring `migrations` without
lying under any `migrations` directory. -/
def c5Entry : FileEntry := ⟨["app1", "run_migrations.py"],
  "/proj/app1/run_migrations.py", ⟨.ok "", .ok (.module [])⟩⟩

/-- Counterexample to C5 as stated: `app1/run_migrations.py` lies under no
path segment equal to `migrations`, yet the aggregator's filter excludes
it (the skip test is a substring test on the whole path string), so the
app's scanned output contains no file at all. -/
theorem migrations_filter_counterexample :
    should_skip c5Entry = true ∧
    c5Entry.segments.contains "migrations" = false ∧
    processApp ⟨"app1", "app1", [c5Entry]⟩ = .ok ⟨"app1", "app1", []⟩ := by
  refine ⟨by decide, by decide, rfl⟩

/-- C5 (amended): the default filter excludes exactly those files whose
full path string contains `migrations` as a substring — a superset of the
files lying under a `migrations` path segment — except that a file named
`__init__.py` is always kept: `__init__.py` is never skipped, any
non-`__init__.py` file under a `migrations` segment is skipped, and every
skipped file's path string contains the substring. -/
theorem should_skip_substring_policy (f : FileEntry) :
    (fileName f = "__init__.py" → should_skip f = false) ∧
    ("migrations" ∈ f.segments → fileName f ≠ "__init__.py" →
        should_skip f = true) ∧
    (should_skip f = true →
        strIn "migrations".toList (joinSegs f.segments).toList = true ∧
        fileName f ≠ "__init__.py") := by
  refine ⟨?_, ?_, ?_⟩
  · intro h
    simp [should_skip, h]
  · intro hmem hne
    have hs := mem_joinSegs_strIn "migrations" f.segments hmem
    show (strIn "migrations".toList (joinSegs f.segments).toList
        && (fileName f != "__init__.py")) = true
    rw [Bool.and_eq_true]
    exact ⟨hs, bne_iff_ne.mpr hne⟩
  · intro h
    simp only [should_skip, Bool.and_eq_true, bne_iff_ne, ne_eq] at h
    exact ⟨h.1, h.2⟩

/-- A regular migration file under a `migrations` directory. -/
def c5wMig : FileEntry := ⟨["shop", "migrations", "0001_initial.py"],
  "/proj/shop/migrations/0001_initial.py", ⟨.ok "", .ok (.module [])⟩⟩

/-- The package marker file of the same `migrations` directory. -/
def c5wInit : FileEntry := ⟨["shop", "migrations", "__init__.py"],
  "/proj/shop/migrations/__init__.py", ⟨.ok "", .ok (.module [])⟩⟩

/-- Witness for C5's amended statement: the migration file under the
`migrations` segment is skipped while its sibling `__init__.py` is
kept. -/
theorem should_skip_substring_policy_witness :
    should_skip c5wMig = true ∧ should_skip c5wInit = false := by
  constructor
  · exact (should_skip_substring_policy c5wMig).2.1 (by decide) (by decide)
  · exact (should_skip_substring_policy c5wInit).1 rfl

/-- Class `Foo` with a single method `bar`, exercising C6. -/
def c6Cls : Node := .classDef "Foo"
  [.functionDef "bar" [] ⟨2, some 4, some 2, some 20⟩] ⟨1, some 0, some 2, some 20⟩

/-- Witness for C6 at a concrete class: the record built for `Foo` carries
exactly the subtree's method list, which is `[bar]`. -/
theorem class_methods_are_exactly_subtree_functions_witness :
    DeclItem.methods
        (DeclItem.mk "Class" "Foo" none ⟨1, 2, 0, 20⟩ (class_methods c6Cls []))
      = class_methods c6Cls [] ∧
    class_methods c6Cls [] = [⟨"bar", false, ⟨2, 2, 4, 20⟩⟩] := by
  have h := class_methods_are_exactly_subtree_functions "Foo"
    [.functionDef "bar" [] ⟨2, some 4, some 2, some 20⟩] ⟨1, some 0, some 2, some 20⟩ []
  exact ⟨h.2.2.2 _ rfl, by decide⟩
